import Mathlib

/-
Verification of dollop.py, a step-wise batch interpreter for a minimal
Lisp/Scheme subset.  The Python source, src/dollop.py, is shallowly
embedded below: Python values become the inductive type Value, the
mutable Environment objects become indices into an explicit store, and
the methods of BatchInterpreter become pure functions on an explicit
interpreter state.  Fallible Python operations (NameError, TypeError,
IndexError, assert, ...) are modelled with Except.
-/

namespace Dollop

/-
Python represents Lisp values by Python types: list, str (symbols),
int, bool, functions (builtins), Lambda objects (closures) and the
sentinel PLACEHOLDER = 42j (a complex number).  A Lambda holds its
parameter expression, its body expression and a reference to its
defining Environment; environments are modelled as indices into a
store.  Builtin functions carry the name attached by with_name plus
which primitive they are; the continuation functions g created inside
_call_cc carry their captured deep-copied stack snapshot.  A Frame is
(expr, env, done), one element of the call stack.
-/
mutual
inductive Value where
  | list : List Value → Value
  | sym : String → Value
  | int : Int → Value
  | bool : Bool → Value
  | builtin : String → BKind → Value
  | lam : Value → Value → Nat → Value
  | placeholder : Value
deriving Repr
inductive BKind where
  | add | sub | mul | eq | listv | callcc
  | cont : List Frame → BKind
deriving Repr
inductive Frame where
  | mk : Value → Nat → Bool → Frame
deriving Repr
end

def Frame.expr : Frame → Value
  | .mk e _ _ => e

def Frame.env : Frame → Nat
  | .mk _ i _ => i

def Frame.done : Frame → Bool
  | .mk _ _ d => d

/-
Environment: a dict from names to values plus an optional parent.  The
dict keys arising at runtime are always Python strings (symbols), so
the data is an association list keyed by String.  An Environment object
is identified by its index into the interpreter-wide store.
-/
structure Environment where
  parent : Option Nat
  data : List (String × Value)
deriving Repr

abbrev Store := List Environment

/- Python exceptions raised by the interpreter. -/
inductive Err where
  | nameError (name : String)
  | typeError
  | assertionError
  | notImplementedError
  | valueError
  | indexError
deriving Repr, DecidableEq

/-! ## lisp_repr (the printer) -/

/-
lisp_repr tests isinstance(obj, str) before int, and isinstance(obj,
int) before the bool branch.  Since bool is a subclass of int in
Python, a Boolean is caught by the int branch and rendered with
repr(obj), i.e. "True"/"False"; the later branch returning #t/#f is
unreachable.  The complex branch renders the PLACEHOLDER sentinel 42j
as "$$".  Every value the interpreter can produce is covered, so the
final ValueError branch has no counterpart here.
-/
mutual
def lisp_repr : Value → String
  | .list l => "(" ++ String.intercalate " " (lisp_reprL l) ++ ")"
  | .sym s => s
  | .int n => toString n
  | .builtin name _ => "<lambda:" ++ name ++ ">"
  | .lam _ _ _ => "<lambda>"
  | .bool b => if b then "True" else "False"
  | .placeholder => "$$"
def lisp_reprL : List Value → List String
  | [] => []
  | v :: vs => lisp_repr v :: lisp_reprL vs
end

/-! ## tokenize -/

/-
Python str.strip()/lstrip() remove ASCII whitespace (the source and all
claim inputs are ASCII, so the extra Unicode space characters Python
would also strip never occur).  The tokenizer's word loop stops at the
six characters of "() \n\t\r" exactly.
-/
def isPyWS (c : Char) : Bool :=
  c == ' ' || c == '\t' || c == '\n' || c == '\r' || c == '\x0b' || c == '\x0c'

def lstripChars (cs : List Char) : List Char :=
  cs.dropWhile isPyWS

def isTermChar (c : Char) : Bool :=
  c == '(' || c == ')' || c == ' ' || c == '\n' || c == '\t' || c == '\r'

/- The inner while loop of tokenize: collect chars until a terminator. -/
def wordChars : List Char → List Char × List Char
  | [] => ([], [])
  | c :: cs =>
    if isTermChar c then ([], c :: cs)
    else
      let (w, r) := wordChars cs
      (c :: w, r)

/-
The outer while loop of tokenize.  Python's loop consumes at least one
character per iteration; the fuel argument (instantiated with the
input length, an upper bound on the iteration count) only serves to
make the recursion structural.
-/
def tokenizeGo : Nat → List Char → List String
  | 0, _ => []
  | _, [] => []
  | fuel + 1, '(' :: cs => "(" :: tokenizeGo fuel (lstripChars cs)
  | fuel + 1, ')' :: cs => ")" :: tokenizeGo fuel (lstripChars cs)
  | fuel + 1, cs =>
    let (w, r) := wordChars cs
    String.mk w :: tokenizeGo fuel (lstripChars r)

def tokenize (s : String) : List String :=
  let cs := lstripChars s.toList
  tokenizeGo cs.length cs

/-! ## convert_token and parse -/

/-
re.match("^-?\d+$", token), with \d read as the ASCII digits (the only
digits occurring in this repository's programs).
-/
def isIntToken (s : String) : Bool :=
  match s.toList with
  | '-' :: rest => !rest.isEmpty && rest.all Char.isDigit
  | cs => !cs.isEmpty && cs.all Char.isDigit

def digitsToNat : List Char → Nat → Nat
  | [], acc => acc
  | c :: cs, acc => digitsToNat cs (acc * 10 + (c.toNat - 48))

def strToInt (s : String) : Int :=
  match s.toList with
  | '-' :: rest => -(digitsToNat rest 0 : Int)
  | cs => (digitsToNat cs 0 : Int)

def convert_token (t : String) : Value :=
  if isIntToken t then .int (strToInt t)
  else if t == "#t" then .bool true
  else if t == "#f" then .bool false
  else .sym t

/-
parse iterates over the tokens keeping a stack of open lists
(expr_stack).  Python appends at the end of the innermost list; here
the innermost list is the head of the stack and is accumulated in
reverse, re-reversed when it is closed.  The function returns the
first complete toplevel expression immediately, ignoring any further
tokens, exactly as the Python code does; popping or indexing an empty
expr_stack raises IndexError, modelled by none.
-/
def parseGo : List String → List (List Value) → Option Value
  | [], stk =>
    match stk with
    | [] => none
    | top :: _ => some (.list top.reverse)
  | t :: ts, stk =>
    if t = "(" then
      parseGo ts ([] :: stk)
    else if t = ")" then
      match stk with
      | [] => none
      | [top] => some (.list top.reverse)
      | top :: up :: rest => parseGo ts ((Value.list top.reverse :: up) :: rest)
    else
      match stk with
      | [] => some (convert_token t)
      | top :: rest => parseGo ts ((convert_token t :: top) :: rest)

def parse (tokens : List String) : Option Value :=
  parseGo tokens []

/-! ## Environment operations -/

/-
Python dict assignment: overwrite an existing key in place, otherwise
append.
-/
def assocSet (k : String) (v : Value) : List (String × Value) → List (String × Value)
  | [] => [(k, v)]
  | (k2, v2) :: rest => if k2 == k then (k, v) :: rest else (k2, v2) :: assocSet k v rest

def assocGet (k : String) : List (String × Value) → Option Value
  | [] => none
  | (k2, v2) :: rest => if k2 == k then some v2 else assocGet k rest

/-
Environment.get walks the parent chain and returns the owning
environment together with the value; a miss at the root raises
NameError("Undefined name ...").  Parent indices strictly decrease
along a chain (parents are always allocated before children, also
inside deep copies), so a fuel of store.length always suffices; the
fuel only makes the recursion structural.
-/
def envGet (store : Store) : Nat → Nat → String → Except Err (Nat × Value)
  | 0, _, name => .error (.nameError name)
  | fuel + 1, idx, name =>
    match store.get? idx with
    | none => .error (.nameError name)
    | some env =>
      match assocGet name env.data with
      | some v => .ok (idx, v)
      | none =>
        match env.parent with
        | some p => envGet store fuel p name
        | none => .error (.nameError name)

/- Environment.bind on the environment at index idx. -/
def envBind (store : Store) (idx : Nat) (name : String) (v : Value) : Store :=
  match store.get? idx with
  | some e => store.set idx ⟨e.parent, assocSet name v e.data⟩
  | none => store

/- Environment.rebind: find the owning environment, bind there. -/
def envRebind (store : Store) (idx : Nat) (name : String) (v : Value) : Except Err Store := do
  let (owner, _) ← envGet store store.length idx name
  .ok (envBind store owner name v)

/-! ## Special forms -/

def SPECIAL_FORMS : List String := ["begin", "define", "if", "lambda"]

/-
The Python membership test expr[0] in SPECIAL_FORMS compares expr[0]
with == against each keyword string; non-string values never match.
-/
def isSF : Value → Bool
  | .sym s => SPECIAL_FORMS.contains s
  | _ => false

/- Python truthiness of the values this interpreter manipulates. -/
def pyTruthy : Value → Bool
  | .list l => !l.isEmpty
  | .sym s => s != ""
  | .int n => n != 0
  | .bool b => b
  | .builtin _ _ => true
  | .lam _ _ _ => true
  | .placeholder => true

/- Python expr[i] for a non-negative index: IndexError when out of range. -/
def listGet (l : List Value) (i : Nat) : Except Err Value :=
  match l.get? i with
  | some v => .ok v
  | none => .error .indexError

/-
sf_next from the source: the position of the next element to be
evaluated, -1 when done.  The catch-all ValueError branch corresponds
to "Unsupported special form".
-/
def sf_next (expr : List Value) (plpos : Nat) : Except Err Int :=
  match expr with
  | .sym "begin" :: _ => if plpos < expr.length - 1 then .ok plpos else .ok (-1)
  | .sym "if" :: _ => if plpos < 2 then .ok 1 else .ok (-1)
  | .sym "define" :: _ => if plpos < 2 then .ok 2 else .ok (-1)
  | .sym "lambda" :: _ => .ok (-1)
  | _ => .error .valueError

/-
sf_apply from the source.  Returns (result, done) and, because define
mutates the current environment, the updated store.  begin returns
expr[-1]; define binds the (unevaluated) slot-1 name to the evaluated
slot-2 value and returns the Python boolean False; if tests the
truthiness of the already evaluated slot 1; lambda closes over the
current environment.  A define name that is not a symbol would become
a dict key that no symbol lookup can ever reach, so binding it is
modelled as a no-op.
-/
def sf_apply (expr : List Value) (envIdx : Nat) (store : Store) :
    Except Err (Value × Bool × Store) :=
  match expr with
  | .sym "begin" :: _ =>
    match expr.getLast? with
    | some e => .ok (e, false, store)
    | none => .error .indexError
  | .sym "define" :: _ => do
    let name ← listGet expr 1
    let value ← listGet expr 2
    let store1 := match name with
      | .sym s => envBind store envIdx s value
      | _ => store
    .ok (.bool false, true, store1)
  | .sym "if" :: _ => do
    let c ← listGet expr 1
    if pyTruthy c then
      let e ← listGet expr 2
      .ok (e, false, store)
    else
      let e ← listGet expr 3
      .ok (e, false, store)
  | .sym "lambda" :: _ => do
    let params ← listGet expr 1
    let body ← listGet expr 2
    .ok (.lam params body envIdx, true, store)
  | _ => .error .notImplementedError

/-! ## Builtin primitives -/

/- Python numeric coercion: bool is a subclass of int with True == 1. -/
def pyNum : Value → Option Int
  | .int n => some n
  | .bool b => some (if b then 1 else 0)
  | _ => none

/- Python x + y on the value kinds the interpreter can produce. -/
def pyAdd (a b : Value) : Except Err Value :=
  match pyNum a, pyNum b with
  | some x, some y => .ok (.int (x + y))
  | _, _ =>
    match a, b with
    | .list x, .list y => .ok (.list (x ++ y))
    | .sym x, .sym y => .ok (.sym (x ++ y))
    | _, _ => .error .typeError

def pySub (a b : Value) : Except Err Value :=
  match pyNum a, pyNum b with
  | some x, some y => .ok (.int (x - y))
  | _, _ => .error .typeError

/- Python sequence repetition: seq * n with n clamped at 0. -/
def pyRepList (n : Int) (l : List Value) : List Value :=
  (List.replicate n.toNat l).flatten

def pyRepStr (n : Int) (s : String) : String :=
  String.join (List.replicate n.toNat s)

def pyMul (a b : Value) : Except Err Value :=
  match pyNum a, pyNum b with
  | some x, some y => .ok (.int (x * y))
  | some n, none =>
    match b with
    | .list l => .ok (.list (pyRepList n l))
    | .sym s => .ok (.sym (pyRepStr n s))
    | _ => .error .typeError
  | none, some n =>
    match a with
    | .list l => .ok (.list (pyRepList n l))
    | .sym s => .ok (.sym (pyRepStr n s))
    | _ => .error .typeError
  | none, none => .error .typeError

/-
Python x == y.  Numbers compare by value (True == 1), strings and
lists structurally, values of different kinds are unequal, and
PLACEHOLDER == PLACEHOLDER (42j == 42j) holds.  Python compares
function objects and Lambda objects by identity; the interpreter only
ever compares a function or closure with itself (two lookups of one
binding yield the same object), which structural comparison also
renders equal, and no program of this repository compares two
distinct-but-isomorphic closures, so allocation identities are not
tracked.
-/
mutual
def pyEq : Value → Value → Bool
  | .int a, b =>
    match b with
    | .int x => a == x
    | .bool x => a == (if x then 1 else 0)
    | _ => false
  | .bool a, b =>
    match b with
    | .int x => (if a then (1 : Int) else 0) == x
    | .bool x => a == x
    | _ => false
  | .sym a, b =>
    match b with
    | .sym x => a == x
    | _ => false
  | .list a, b =>
    match b with
    | .list x => pyEqL a x
    | _ => false
  | .builtin n1 k1, b =>
    match b with
    | .builtin n2 k2 => n1 == n2 && pyEqB k1 k2
    | _ => false
  | .lam p1 b1 e1, b =>
    match b with
    | .lam p2 b2 e2 => pyEq p1 p2 && pyEq b1 b2 && e1 == e2
    | _ => false
  | .placeholder, b =>
    match b with
    | .placeholder => true
    | _ => false
termination_by structural a => a
def pyEqB : BKind → BKind → Bool
  | .add, b => match b with | .add => true | _ => false
  | .sub, b => match b with | .sub => true | _ => false
  | .mul, b => match b with | .mul => true | _ => false
  | .eq, b => match b with | .eq => true | _ => false
  | .listv, b => match b with | .listv => true | _ => false
  | .callcc, b => match b with | .callcc => true | _ => false
  | .cont f1, b => match b with | .cont f2 => pyEqF f1 f2 | _ => false
termination_by structural a => a
def pyEqL : List Value → List Value → Bool
  | [], b => match b with | [] => true | _ => false
  | a :: as1, b => match b with | x :: xs => pyEq a x && pyEqL as1 xs | _ => false
termination_by structural a => a
def pyEqF : List Frame → List Frame → Bool
  | [], b => match b with | [] => true | _ => false
  | .mk e1 n1 d1 :: r1, b =>
    match b with
    | .mk e2 n2 d2 :: r2 => pyEq e1 e2 && n1 == n2 && d1 == d2 && pyEqF r1 r2
    | _ => false
termination_by structural a => a
end

/-
Application of the pure builtins (those that neither inspect nor
mutate the interpreter state).  The two-parameter lambdas raise
TypeError when called with a different number of arguments; list is
variadic.  call/cc and the continuation functions are dispatched
inside run, not here.
-/
def applyPrim (bk : BKind) (args : List Value) : Except Err Value :=
  match bk, args with
  | .add, [a, b] => pyAdd a b
  | .sub, [a, b] => pySub a b
  | .mul, [a, b] => pyMul a b
  | .eq, [a, b] => .ok (.bool (pyEq a b))
  | .listv, l => .ok (.list l)
  | _, _ => .error .typeError

/-
Lambda.params() returns self._params[:].  For the well-formed case the
parameter expression is a parsed list of symbols and the slice is a
list copy.  Python slicing also succeeds on a string (a lone-symbol
parameter "spec"), iterating over its one-character substrings, and
raises TypeError on anything else; both are reproduced.
-/
def paramsList : Value → Except Err (List Value)
  | .list l => .ok l
  | .sym s => .ok (s.toList.map fun c => Value.sym (String.mk [c]))
  | _ => .error .typeError

/-
The parameter-binding loop of the Lambda call in run: successive
Environment.bind calls into the fresh environment's dict.  A parameter
that is not a symbol would become a dict key unreachable by any symbol
lookup, so binding it is modelled as a no-op.
-/
def bindParams (params : List Value) (args : List Value) : List (String × Value) :=
  (params.zip args).foldl
    (fun data kv =>
      match kv.1 with
      | .sym s => assocSet s kv.2 data
      | _ => data)
    []

/-! ## copy.deepcopy of a call stack -/

/-
copy.deepcopy(stack) copies every Frame, every expression tree and —
through the Frame.env and Lambda.env attributes — every reachable
Environment object, its memo dict preserving sharing within one call.
Functions are atomic for deepcopy, so builtins are not copied and the
snapshot held inside a continuation function g keeps referring to the
original environments.  This is modelled by appending a shifted copy
of the whole store (isomorphic to the memo-copied reachable part plus
unreachable, hence inert, extras) and shifting the environment indices
inside the copied frames, except inside .cont snapshots.  Expression
trees themselves are immutable values here, so copying them is the
identity; only the environment indices need remapping.
-/
mutual
def remapV (off : Nat) : Value → Value
  | .list l => .list (remapVL off l)
  | .lam p b e => .lam (remapV off p) (remapV off b) (e + off)
  | v => v
def remapVL (off : Nat) : List Value → List Value
  | [] => []
  | v :: vs => remapV off v :: remapVL off vs
end

def remapFrame (off : Nat) : Frame → Frame
  | .mk e i d => .mk (remapV off e) (i + off) d

def copyEnv (off : Nat) : Environment → Environment
  | ⟨p, data⟩ => ⟨p.map (· + off), data.map fun kv => (kv.1, remapV off kv.2)⟩

def deepcopyStack (frames : List Frame) (store : Store) : List Frame × Store :=
  let off := store.length
  (frames.map (remapFrame off), store ++ store.map (copyEnv off))

/-! ## The interpreter state and step function -/

/-
BatchInterpreter state: the environment store, the call stack (head =
innermost frame, i.e. the end of the Python list), _max_depth and
_num_calls.  self._env, the toplevel environment, is always the store
entry at index 0.
-/
structure St where
  store : Store
  stack : List Frame
  maxDepth : Nat
  numCalls : Nat
deriving Repr

/-
The index of the first top-level PLACEHOLDER: parent_expr.index
(PLACEHOLDER) compares elements with ==, and 42j equals no other value
the interpreter manipulates, so this is the first .placeholder
element; a missing index raises ValueError (none here).
-/
def indexPH : List Value → Option Nat
  | [] => none
  | .placeholder :: _ => some 0
  | _ :: vs => (indexPH vs).map (· + 1)

/-
_collapse from the source.  v is the finished value of the innermost
frame.  With a single frame on the stack it is returned as the final
result; otherwise the innermost frame is popped, v replaces the
PLACEHOLDER in the parent expression, and the next subexpression (per
sf_next for special forms, the next slot otherwise) is pushed, or the
parent is marked done.  Note that the source builds the pushed frame
with env=parent_frame.env where parent_frame is the frame that was
just popped (the lines marked "# VERIFY"), so the sibling is evaluated
in the popped child's environment; this quirk is reproduced exactly.
A parent expression that is not a list would raise AttributeError at
parent_expr.index; a missing PLACEHOLDER raises ValueError.
-/
def collapse (v : Value) (st : St) : Except Err (Option Value × St) :=
  match st.stack with
  | [] => .error .indexError
  | [_] => .ok (some v, st)
  | child :: parent :: rest =>
    match parent with
    | .mk (.list pl) penv pdone =>
      match indexPH pl with
      | none => .error .valueError
      | some plpos =>
        let pl1 := pl.set plpos v
        if isSF (pl1.headD .placeholder) then
          match sf_next pl1 (plpos + 1) with
          | .error er => .error er
          | .ok p2 =>
            if p2 > -1 then
              match listGet pl1 p2.toNat with
              | .error er => .error er
              | .ok sub =>
                let pl2 := pl1.set p2.toNat .placeholder
                .ok (none, { st with stack := .mk sub child.env false :: .mk (.list pl2) penv pdone :: rest })
            else
              .ok (none, { st with stack := .mk (.list pl1) penv true :: rest })
        else
          if pl1.length == plpos + 1 then
            .ok (none, { st with stack := .mk (.list pl1) penv true :: rest })
          else
            match listGet pl1 (plpos + 1) with
            | .error er => .error er
            | .ok sub =>
              let pl2 := pl1.set (plpos + 1) .placeholder
              .ok (none, { st with stack := .mk sub child.env false :: .mk (.list pl2) penv pdone :: rest })
    | _ => .error .typeError

/-
run from the source: one step.  Returns (some v, st) when run returns
a final value and (none, st) when it returns None (still running).
The branch order follows the source: empty list, done special form,
done Lambda call, done builtin call (with call/cc and continuation
functions manipulating the stack directly), pending special form,
pending ordinary call, symbol lookup, self-evaluating atom.
-/
def run (st0 : St) : Except Err (Option Value × St) :=
  let st : St := { st0 with
    numCalls := st0.numCalls + 1
    maxDepth := max st0.maxDepth st0.stack.length }
  match st.stack with
  | [] => .error .indexError
  | .mk expr env done :: rest =>
    match expr with
    | .list [] => .ok (some (.list []), st)
    | .list (e0 :: es) =>
      if done then
        if isSF e0 then
          match sf_apply (e0 :: es) env st.store with
          | .error er => .error er
          | .ok (result, d, store1) =>
            let st1 := { st with store := store1 }
            if d then
              collapse result st1
            else
              .ok (none, { st1 with stack := .mk result env false :: rest })
        else
          match e0 with
          | .lam params body fenv =>
            match paramsList params with
            | .error er => .error er
            | .ok pl =>
              if es.length == pl.length then
                let newIdx := st.store.length
                let store1 := st.store ++ [⟨some fenv, bindParams pl es⟩]
                .ok (none, { st with store := store1, stack := .mk body newIdx false :: rest })
              else .error .assertionError
          | .builtin _ bk =>
            match bk with
            | .callcc =>
              match es with
              | [f] =>
                match f with
                | .lam fparams fbody fenv =>
                  match paramsList fparams with
                  | .error er => .error er
                  | .ok pl =>
                    match pl with
                    | [p] =>
                      let dc := deepcopyStack st.stack st.store
                      let g := Value.builtin "<cont>" (.cont dc.1)
                      let data := match p with
                        | .sym s => [(s, g)]
                        | _ => []
                      let newIdx := dc.2.length
                      let store2 := dc.2 ++ [⟨some fenv, data⟩]
                      .ok (none, { st with store := store2, stack := .mk fbody newIdx false :: rest })
                    | _ => .error .assertionError
                | _ => .error .assertionError
              | _ => .error .typeError
            | .cont snap =>
              match es with
              | [x] =>
                let dc := deepcopyStack snap st.store
                collapse x { st with stack := dc.1, store := dc.2 }
              | _ => .error .typeError
            | _ =>
              match applyPrim bk es with
              | .error er => .error er
              | .ok v => collapse v st
          | _ => .error .typeError
      else
        if isSF e0 then
          match sf_next (e0 :: es) 1 with
          | .error er => .error er
          | .ok plpos =>
            if plpos > -1 then
              match listGet (e0 :: es) plpos.toNat with
              | .error er => .error er
              | .ok sub =>
                let expr1 := Value.list ((e0 :: es).set plpos.toNat .placeholder)
                .ok (none, { st with stack := .mk sub env false :: .mk expr1 env done :: rest })
            else
              .ok (none, { st with stack := .mk expr env true :: rest })
        else
          let expr1 := Value.list (Value.placeholder :: es)
          .ok (none, { st with stack := .mk e0 env false :: .mk expr1 env done :: rest })
    | .sym s =>
      match envGet st.store st.store.length env s with
      | .error er => .error er
      | .ok (_, v) => collapse v st
    | _ => collapse expr st

/-! ## The driver -/

/-
_create_toplevel_env binds the five arithmetic/list builtins, call/cc
and the pre-defined variable magic = 42.
-/
def toplevelEnv : Environment :=
  ⟨none,
   [("+", .builtin "+" .add),
    ("-", .builtin "-" .sub),
    ("*", .builtin "*" .mul),
    ("=", .builtin "=" .eq),
    ("list", .builtin "list" .listv),
    ("call/cc", .builtin "call/cc" .callcc),
    ("magic", .int 42)]⟩

/- A freshly constructed BatchInterpreter. -/
def initSt : St := ⟨[toplevelEnv], [], 0, 0⟩

/- _feed: install the expression as the only frame; _num_calls := 0. -/
def feed (st : St) (v : Value) : St :=
  { st with stack := [.mk v 0 false], numCalls := 0 }

/-
The eval loop: call run until it produces a result.  The fuel bounds
the number of steps (Python loops unboundedly); .ok none means the
fuel was exhausted with the evaluation still running.
-/
def loop : Nat → St → Except Err (Option (Value × St))
  | 0, _ => .ok none
  | n + 1, st =>
    match run st with
    | .error er => .error er
    | .ok (some v, st1) => .ok (some (v, st1))
    | .ok (none, st1) => loop n st1

/- eval from the source: tokenize, parse, feed, loop. -/
def evalIn (fuel : Nat) (st : St) (s : String) : Except Err (Option (Value × St)) :=
  match parse (tokenize s) with
  | none => .error .indexError
  | some v => loop fuel (feed st v)

/- Successive eval calls on one interpreter, as the test suite does. -/
def evalSeq (fuel : Nat) : St → List String → Except Err (Option (Value × St))
  | _, [] => .error .indexError
  | st, [s] => evalIn fuel st s
  | st, s :: ss =>
    match evalIn fuel st s with
    | .error er => .error er
    | .ok none => .ok none
    | .ok (some (_, st1)) => evalSeq fuel st1 ss

def resultOf (r : Except Err (Option (Value × St))) : Option Value :=
  match r with
  | .ok (some (v, _)) => some v
  | _ => none

def depthOf (r : Except Err (Option (Value × St))) : Option Nat :=
  match r with
  | .ok (some (_, st)) => some st.maxDepth
  | _ => none

/- One-shot evaluation on a fresh interpreter. -/
def evalE (s : String) : Except Err (Option (Value × St)) :=
  evalIn 10000 initSt s

def evalStr (s : String) : Option Value :=
  resultOf (evalE s)

/- The stack length recorded in the state a finished evaluation returns. -/
def stackLenOf (r : Except Err (Option (Value × St))) : Option Nat :=
  match r with
  | .ok (some (_, st)) => some st.stack.length
  | _ => none

/- The two factorial programs of the testable-properties section. -/
def facNaiveSrc : String :=
  "(define fac (lambda (n) (if (= n 1) 1 (* n (fac (- n 1))))))"

def facTailSrc : String :=
  "(define fac (lambda (n) (begin (define fac-aux (lambda (n acc) (if (= n 1) acc (fac-aux (- n 1) (* acc n))))) (fac-aux n 1))))"

/-! ## Placeholder hygiene: invariant predicates -/

/-
The PLACEHOLDER discipline of the interpreter: an evaluated value
contains no placeholder anywhere (vOK), where the stack snapshot
carried by a continuation function must itself be a well-shaped stack
(snapOK): its innermost frame's expression is placeholder-free, and
every other frame's expression is a list with exactly one top-level
PLACEHOLDER (the slot its child is computing) and placeholder-free
other elements (onePH).
-/
mutual
def vOK : Value → Bool
  | .list l => lOK l
  | .lam p b _ => vOK p && vOK b
  | .builtin _ bk => bOK bk
  | .placeholder => false
  | _ => true
def bOK : BKind → Bool
  | .cont fs => snapOK fs
  | _ => true
def lOK : List Value → Bool
  | [] => true
  | v :: vs => vOK v && lOK vs
def onePH : List Value → Bool
  | [] => false
  | .placeholder :: vs => lOK vs
  | v :: vs => vOK v && onePH vs
def midFrameOK : Frame → Bool
  | .mk (.list l) _ _ => onePH l
  | _ => false
def midFramesOK : List Frame → Bool
  | [] => true
  | f :: fs => midFrameOK f && midFramesOK fs
def snapOK : List Frame → Bool
  | [] => true
  | .mk e _ _ :: fs => vOK e && midFramesOK fs
end

/- All values stored in an environment dict are placeholder-free. -/
def dataOK : List (String × Value) → Bool
  | [] => true
  | (_, v) :: rest => vOK v && dataOK rest

def storeOK : Store → Bool
  | [] => true
  | e :: es => dataOK e.data && storeOK es

/- Every partial list on the parser's expr_stack is placeholder-free. -/
def stksOK : List (List Value) → Bool
  | [] => true
  | l :: ls => lOK l && stksOK ls

/-
No PLACEHOLDER occurs anywhere in the observable structure of a value.
Builtins (Python function objects, including the continuation
functions) are opaque atoms to the caller, as they are in Python.
-/
mutual
def phFree : Value → Bool
  | .list l => phFreeL l
  | .lam p b _ => phFree p && phFree b
  | .placeholder => false
  | _ => true
def phFreeL : List Value → Bool
  | [] => true
  | v :: vs => phFree v && phFreeL vs
end

/-! ## Placeholder hygiene: basic lemmas -/

mutual
theorem vOK_phFree : ∀ (v : Value), vOK v = true → phFree v = true
  | .list l, h => by
    simp only [vOK] at h
    simpa [phFree] using lOK_phFreeL l h
  | .lam p b e, h => by
    simp only [vOK, Bool.and_eq_true] at h
    simp [phFree, vOK_phFree p h.1, vOK_phFree b h.2]
  | .sym _, _ => rfl
  | .int _, _ => rfl
  | .bool _, _ => rfl
  | .builtin _ _, _ => rfl
theorem lOK_phFreeL : ∀ (l : List Value), lOK l = true → phFreeL l = true
  | [], _ => rfl
  | v :: vs, h => by
    simp only [lOK, Bool.and_eq_true] at h
    simp [phFreeL, vOK_phFree v h.1, lOK_phFreeL vs h.2]
end

theorem onePH_cons_of_vOK {a : Value} {xs : List Value} (ha : vOK a = true) :
    onePH (a :: xs) = (vOK a && onePH xs) := by
  cases a <;> simp_all [onePH, vOK]

theorem lOK_get {l : List Value} {i : Nat} {v : Value} (hl : lOK l = true)
    (h : l.get? i = some v) : vOK v = true := by
  induction l generalizing i with
  | nil => simp at h
  | cons a as ih =>
    simp only [lOK, Bool.and_eq_true] at hl
    cases i with
    | zero =>
      simp only [List.get?, Option.some.injEq] at h
      exact h ▸ hl.1
    | succ j => exact ih hl.2 h

theorem lOK_append {a b : List Value} (ha : lOK a = true) (hb : lOK b = true) :
    lOK (a ++ b) = true := by
  induction a with
  | nil => simpa using hb
  | cons x xs ih => simp_all [lOK]

theorem lOK_reverse {l : List Value} (h : lOK l = true) : lOK l.reverse = true := by
  induction l with
  | nil => simpa using h
  | cons x xs ih =>
    simp only [lOK, Bool.and_eq_true] at h
    simpa [List.reverse_cons] using lOK_append (ih h.2) (by simp [lOK, h.1])

theorem lOK_getLast : ∀ {l : List Value} {v : Value}, lOK l = true →
    l.getLast? = some v → vOK v = true
  | [], _, _, h => by simp at h
  | [a], v, hl, h => by
    simp only [List.getLast?_singleton, Option.some.injEq] at h
    simp only [lOK, Bool.and_eq_true] at hl
    exact h ▸ hl.1
  | a :: b :: bs, v, hl, h => by
    rw [List.getLast?_cons_cons] at h
    simp only [lOK, Bool.and_eq_true] at hl
    exact lOK_getLast (by simp [lOK, hl.2.1, hl.2.2]) h

theorem lOK_set {l : List Value} {i : Nat} {v : Value} (hl : lOK l = true)
    (hv : vOK v = true) : lOK (l.set i v) = true := by
  induction l generalizing i with
  | nil => simpa using hl
  | cons a as ih =>
    simp only [lOK, Bool.and_eq_true] at hl
    cases i with
    | zero => simp [List.set, lOK, hv, hl.2]
    | succ j => simp [List.set, lOK, hl.1, ih hl.2]

theorem onePH_set_ph {l : List Value} {i : Nat} {w : Value} (hl : lOK l = true)
    (h : l.get? i = some w) : onePH (l.set i .placeholder) = true := by
  induction l generalizing i with
  | nil => simp at h
  | cons a as ih =>
    simp only [lOK, Bool.and_eq_true] at hl
    cases i with
    | zero => simp [List.set, onePH, hl.2]
    | succ j =>
      have := ih hl.2 h
      simp only [List.set]
      rw [onePH_cons_of_vOK hl.1]
      simp [hl.1, this]

theorem onePH_indexPH {l : List Value} (h : onePH l = true) :
    ∃ i, indexPH l = some i ∧ i < l.length ∧
      ∀ v, vOK v = true → lOK (l.set i v) = true := by
  induction l with
  | nil => simp [onePH] at h
  | cons a as ih =>
    cases ha : a with
    | placeholder =>
      refine ⟨0, by simp [indexPH], by simp, fun v hv => ?_⟩
      subst ha
      simp only [onePH] at h
      simp [List.set, lOK, hv, h]
    | _ =>
      subst ha
      simp only [onePH, Bool.and_eq_true] at h
      obtain ⟨i, hi, hlen, hset⟩ := ih h.2
      refine ⟨i + 1, ?_, by simpa using hlen, fun v hv => ?_⟩
      · simp [indexPH, hi]
      · simp only [List.set]
        simp [lOK, h.1, hset v hv]

theorem dataOK_assocSet {d : List (String × Value)} {k : String} {v : Value}
    (hv : vOK v = true) (hd : dataOK d = true) : dataOK (assocSet k v d) = true := by
  induction d with
  | nil => simp [assocSet, dataOK, hv]
  | cons p rest ih =>
    obtain ⟨k2, v2⟩ := p
    simp only [dataOK, Bool.and_eq_true] at hd
    by_cases hk : k2 == k <;> simp [assocSet, hk, dataOK, hv, hd.1, hd.2, ih hd.2]

theorem dataOK_assocGet {d : List (String × Value)} {k : String} {v : Value}
    (hd : dataOK d = true) (h : assocGet k d = some v) : vOK v = true := by
  induction d with
  | nil => simp [assocGet] at h
  | cons p rest ih =>
    obtain ⟨k2, v2⟩ := p
    simp only [dataOK, Bool.and_eq_true] at hd
    by_cases hk : k2 == k
    · simp only [assocGet, hk, if_true, Option.some.injEq] at h
      exact h ▸ hd.1
    · simp only [assocGet, hk, if_false] at h
      exact ih hd.2 h

theorem storeOK_get {s : Store} {i : Nat} {e : Environment} (hs : storeOK s = true)
    (h : s.get? i = some e) : dataOK e.data = true := by
  induction s generalizing i with
  | nil => simp at h
  | cons a as ih =>
    simp only [storeOK, Bool.and_eq_true] at hs
    cases i with
    | zero =>
      simp only [List.get?, Option.some.injEq] at h
      exact h ▸ hs.1
    | succ j => exact ih hs.2 h

theorem storeOK_set {s : Store} {i : Nat} {e : Environment} (hs : storeOK s = true)
    (he : dataOK e.data = true) : storeOK (s.set i e) = true := by
  induction s generalizing i with
  | nil => simpa using hs
  | cons a as ih =>
    simp only [storeOK, Bool.and_eq_true] at hs
    cases i with
    | zero => simp [List.set, storeOK, he, hs.2]
    | succ j => simp [List.set, storeOK, hs.1, ih hs.2]

theorem storeOK_append {a b : Store} (ha : storeOK a = true) (hb : storeOK b = true) :
    storeOK (a ++ b) = true := by
  induction a with
  | nil => simpa using hb
  | cons x xs ih => simp_all [storeOK]

theorem storeOK_envBind {store : Store} {idx : Nat} {name : String} {v : Value}
    (hs : storeOK store = true) (hv : vOK v = true) :
    storeOK (envBind store idx name v) = true := by
  unfold envBind
  cases hg : store.get? idx with
  | none => simpa using hs
  | some e =>
    exact storeOK_set hs (dataOK_assocSet hv (storeOK_get hs hg))

theorem envGet_vOK {store : Store} {fuel idx : Nat} {name : String} {i : Nat} {v : Value}
    (hs : storeOK store = true) (h : envGet store fuel idx name = .ok (i, v)) :
    vOK v = true := by
  induction fuel generalizing idx with
  | zero => simp [envGet] at h
  | succ n ih =>
    unfold envGet at h
    split at h
    · simp at h
    next e hg =>
      split at h
      next w ha =>
        simp only [Except.ok.injEq, Prod.mk.injEq] at h
        have hd : dataOK e.data = true := storeOK_get hs hg
        exact h.2 ▸ dataOK_assocGet hd ha
      next ha =>
        split at h
        next p hp => exact ih h
        next => simp at h

/-! ## Placeholder hygiene: deep copy and builtin lemmas -/

theorem listGet_ok {l : List Value} {i : Nat} {v : Value} :
    listGet l i = .ok v ↔ l.get? i = some v := by
  unfold listGet
  cases h : l.get? i <;> simp

mutual
theorem remapV_vOK : ∀ (off : Nat) (v : Value), vOK (remapV off v) = vOK v
  | off, .list l => by simp [remapV, vOK, remapVL_lOK off l]
  | off, .lam p b e => by simp [remapV, vOK, remapV_vOK off p, remapV_vOK off b]
  | _, .sym _ => rfl
  | _, .int _ => rfl
  | _, .bool _ => rfl
  | _, .builtin _ _ => rfl
  | _, .placeholder => rfl
theorem remapVL_lOK : ∀ (off : Nat) (l : List Value), lOK (remapVL off l) = lOK l
  | _, [] => rfl
  | off, v :: vs => by simp [remapVL, lOK, remapV_vOK off v, remapVL_lOK off vs]
end

theorem remapVL_onePH : ∀ (off : Nat) (l : List Value), onePH (remapVL off l) = onePH l
  | _, [] => rfl
  | off, .placeholder :: vs => by simp [remapVL, remapV, onePH, remapVL_lOK]
  | off, .list x :: vs => by
    simp [remapVL, remapV, onePH, remapVL_lOK, remapVL_onePH off vs, vOK]
  | off, .sym x :: vs => by simp [remapVL, remapV, onePH, remapVL_onePH off vs]
  | off, .int x :: vs => by simp [remapVL, remapV, onePH, remapVL_onePH off vs]
  | off, .bool x :: vs => by simp [remapVL, remapV, onePH, remapVL_onePH off vs]
  | off, .builtin n k :: vs => by simp [remapVL, remapV, onePH, remapVL_onePH off vs]
  | off, .lam p b e :: vs => by
    simp [remapVL, remapV, onePH, remapVL_onePH off vs, vOK, remapV_vOK]

theorem midFrameOK_remap (off : Nat) (f : Frame) :
    midFrameOK (remapFrame off f) = midFrameOK f := by
  obtain ⟨e, i, d⟩ := f
  cases e <;> simp [remapFrame, remapV, midFrameOK, remapVL_onePH]

theorem midFramesOK_remap (off : Nat) :
    ∀ (fs : List Frame), midFramesOK (fs.map (remapFrame off)) = midFramesOK fs
  | [] => rfl
  | f :: fs => by
    simp [midFramesOK, midFrameOK_remap, midFramesOK_remap off fs]

theorem snapOK_remap (off : Nat) :
    ∀ (fs : List Frame), snapOK (fs.map (remapFrame off)) = snapOK fs
  | [] => rfl
  | .mk e i d :: fs => by
    simp [snapOK, remapFrame, remapV_vOK, midFramesOK_remap]

theorem dataOK_map_remap (off : Nat) :
    ∀ (d : List (String × Value)),
      dataOK (d.map fun kv => (kv.1, remapV off kv.2)) = dataOK d
  | [] => rfl
  | (k, v) :: rest => by
    simp [dataOK, remapV_vOK, dataOK_map_remap off rest]

theorem storeOK_map_copyEnv (off : Nat) :
    ∀ (s : Store), storeOK (s.map (copyEnv off)) = storeOK s
  | [] => rfl
  | ⟨p, d⟩ :: es => by
    simp [storeOK, copyEnv, dataOK_map_remap, storeOK_map_copyEnv off es]

theorem deepcopyStack_ok {fs : List Frame} {store : Store}
    (hf : snapOK fs = true) (hs : storeOK store = true) :
    snapOK (deepcopyStack fs store).1 = true ∧ storeOK (deepcopyStack fs store).2 = true := by
  unfold deepcopyStack
  exact ⟨by simpa [snapOK_remap] using hf,
    storeOK_append hs (by simpa [storeOK_map_copyEnv] using hs)⟩

theorem lOK_mem {l : List Value} {v : Value} (hl : lOK l = true) (h : v ∈ l) :
    vOK v = true := by
  induction l with
  | nil => simp at h
  | cons a as ih =>
    simp only [lOK, Bool.and_eq_true] at hl
    rcases List.mem_cons.mp h with h1 | h2
    · exact h1 ▸ hl.1
    · exact ih hl.2 h2

theorem lOK_map_sym (cs : List Char) :
    lOK (cs.map fun c => Value.sym (String.mk [c])) = true := by
  induction cs with
  | nil => rfl
  | cons c rest ih => simp [lOK, vOK, ih]

theorem paramsList_lOK {params : Value} {pl : List Value}
    (hv : vOK params = true) (h : paramsList params = .ok pl) : lOK pl = true := by
  cases params with
  | list l =>
    simp only [paramsList, Except.ok.injEq] at h
    exact h ▸ (by simpa [vOK] using hv)
  | sym s =>
    simp only [paramsList, Except.ok.injEq] at h
    exact h ▸ lOK_map_sym s.toList
  | _ => simp [paramsList] at h

theorem dataOK_foldBind :
    ∀ (pairs : List (Value × Value)) (d : List (String × Value)),
      (∀ kv ∈ pairs, vOK kv.2 = true) → dataOK d = true →
      dataOK (pairs.foldl
        (fun data kv =>
          match kv.1 with
          | .sym s => assocSet s kv.2 data
          | _ => data) d) = true
  | [], d, _, hd => by simpa using hd
  | (p, a) :: ps, d, hp, hd => by
    rw [List.foldl_cons]
    refine dataOK_foldBind ps _ (fun kv hkv => hp kv (List.mem_cons_of_mem _ hkv)) ?_
    have ha : vOK a = true := hp (p, a) (List.mem_cons_self _ _)
    cases p <;> simp [dataOK_assocSet ha hd, hd]

theorem dataOK_bindParams {pl es : List Value} (he : lOK es = true) :
    dataOK (bindParams pl es) = true := by
  unfold bindParams
  refine dataOK_foldBind _ _ (fun kv hkv => ?_) rfl
  exact lOK_mem he (List.of_mem_zip hkv).2

theorem pyAdd_vOK {a b v : Value} (ha : vOK a = true) (hb : vOK b = true)
    (h : pyAdd a b = .ok v) : vOK v = true := by
  unfold pyAdd at h
  split at h
  · simp only [Except.ok.injEq] at h; exact h ▸ rfl
  · split at h
    · simp only [Except.ok.injEq] at h
      subst h
      simp only [vOK] at ha hb ⊢
      exact lOK_append ha hb
    · simp only [Except.ok.injEq] at h; exact h ▸ rfl
    · simp at h

theorem lOK_pyRepList {n : Int} {l : List Value} (hl : lOK l = true) :
    lOK (pyRepList n l) = true := by
  unfold pyRepList
  generalize n.toNat = k
  induction k with
  | zero => rfl
  | succ m ih => simpa [List.replicate_succ] using lOK_append hl ih

theorem pyMul_vOK {a b v : Value} (ha : vOK a = true) (hb : vOK b = true)
    (h : pyMul a b = .ok v) : vOK v = true := by
  unfold pyMul at h
  split at h
  · simp only [Except.ok.injEq] at h; exact h ▸ rfl
  · split at h
    · simp only [Except.ok.injEq] at h
      subst h
      simp only [vOK] at hb ⊢
      exact lOK_pyRepList hb
    · simp only [Except.ok.injEq] at h; exact h ▸ rfl
    · simp at h
  · split at h
    · simp only [Except.ok.injEq] at h
      subst h
      simp only [vOK] at ha ⊢
      exact lOK_pyRepList ha
    · simp only [Except.ok.injEq] at h; exact h ▸ rfl
    · simp at h
  · simp at h

theorem applyPrim_vOK {bk : BKind} {args : List Value} {v : Value}
    (ha : lOK args = true) (h : applyPrim bk args = .ok v) : vOK v = true := by
  unfold applyPrim at h
  split at h
  next a b =>
    have h2 : lOK [a, b] = true := ha
    simp only [lOK, Bool.and_eq_true] at h2
    exact pyAdd_vOK h2.1 h2.2.1 h
  next a b =>
    unfold pySub at h
    split at h
    · simp only [Except.ok.injEq] at h; exact h ▸ rfl
    · simp at h
  next a b =>
    have h2 : lOK [a, b] = true := ha
    simp only [lOK, Bool.and_eq_true] at h2
    exact pyMul_vOK h2.1 h2.2.1 h
  next a b =>
    simp only [Except.ok.injEq] at h; exact h ▸ rfl
  next l =>
    simp only [Except.ok.injEq] at h
    exact h ▸ (by simpa [vOK] using ha)
  next => simp at h

/-! ## Placeholder hygiene: sf_apply and collapse preserve the invariant -/

theorem sf_apply_ok {expr : List Value} {env : Nat} {store : Store}
    {r : Value} {d : Bool} {store1 : Store}
    (hs : storeOK store = true) (he : lOK expr = true)
    (h : sf_apply expr env store = .ok (r, d, store1)) :
    vOK r = true ∧ storeOK store1 = true := by
  unfold sf_apply at h
  split at h
  next es =>
    -- begin
    split at h
    next tl hl =>
      simp only [Except.ok.injEq, Prod.mk.injEq] at h
      exact ⟨h.1 ▸ lOK_getLast he hl, h.2.2 ▸ hs⟩
    next => simp at h
  next es =>
    -- define
    simp only [bind, Except.bind] at h
    split at h
    next => simp at h
    next name h1 =>
      split at h
      next => simp at h
      next value h2 =>
        simp only [Except.ok.injEq, Prod.mk.injEq] at h
        have hv : vOK value = true := lOK_get he (listGet_ok.mp h2)
        refine ⟨h.1 ▸ rfl, h.2.2 ▸ ?_⟩
        cases name <;> simp [storeOK_envBind hs hv, hs]
  next es =>
    -- if
    simp only [bind, Except.bind] at h
    split at h
    next => simp at h
    next c h1 =>
      split at h
      · split at h
        next => simp at h
        next t2 h2 =>
          simp only [Except.ok.injEq, Prod.mk.injEq] at h
          exact ⟨h.1 ▸ lOK_get he (listGet_ok.mp h2), h.2.2 ▸ hs⟩
      · split at h
        next => simp at h
        next t3 h3 =>
          simp only [Except.ok.injEq, Prod.mk.injEq] at h
          exact ⟨h.1 ▸ lOK_get he (listGet_ok.mp h3), h.2.2 ▸ hs⟩
  next es =>
    -- lambda
    simp only [bind, Except.bind] at h
    split at h
    next => simp at h
    next params h1 =>
      split at h
      next => simp at h
      next body h2 =>
        simp only [Except.ok.injEq, Prod.mk.injEq] at h
        refine ⟨h.1 ▸ ?_, h.2.2 ▸ hs⟩
        simp [vOK, lOK_get he (listGet_ok.mp h1), lOK_get he (listGet_ok.mp h2)]
  next => simp at h

theorem collapse_ok {v : Value} {st : St} {o : Option Value} {st1 : St}
    (hs : storeOK st.store = true) (hk : snapOK st.stack = true) (hv : vOK v = true)
    (h : collapse v st = .ok (o, st1)) :
    snapOK st1.stack = true ∧ storeOK st1.store = true ∧
      ∀ w, o = some w → vOK w = true := by
  obtain ⟨store, stack, md, nc⟩ := st
  rcases stack with _ | ⟨⟨ce, cenv, cd⟩, _ | ⟨⟨pe, penv, pdone⟩, rest⟩⟩
  · simp [collapse] at h
  · simp only [collapse, Except.ok.injEq, Prod.mk.injEq] at h
    obtain ⟨ho, hst⟩ := h
    subst hst
    refine ⟨hk, hs, fun w hw => ?_⟩
    rw [← ho] at hw
    injection hw with hw
    exact hw ▸ hv
  · simp only [snapOK, midFramesOK, Bool.and_eq_true] at hk
    obtain ⟨hce, hmid, hrest⟩ := hk
    cases pe with
    | sym s => simp [midFrameOK] at hmid
    | int n => simp [midFrameOK] at hmid
    | bool b => simp [midFrameOK] at hmid
    | builtin nm bk => simp [midFrameOK] at hmid
    | lam p b e => simp [midFrameOK] at hmid
    | placeholder => simp [midFrameOK] at hmid
    | list pl =>
      simp only [midFrameOK] at hmid
      obtain ⟨i, hi, hilen, hset⟩ := onePH_indexPH hmid
      have hpl1 : lOK (pl.set i v) = true := hset v hv
      simp only [collapse] at h
      split at h
      next heq => rw [hi] at heq; cases heq
      next plpos heq =>
        rw [hi] at heq
        injection heq with heq
        subst heq
        split at h
        · -- parent is a special form
          split at h
          next er heq1 => simp at h
          next p2 heq1 =>
            split at h
            · -- push the next subexpression
              split at h
              next er heq2 => simp at h
              next sub heq2 =>
                simp only [Except.ok.injEq, Prod.mk.injEq] at h
                obtain ⟨ho, hst⟩ := h
                subst hst
                have hget := listGet_ok.mp heq2
                refine ⟨?_, hs, fun w hw => ?_⟩
                · simp [snapOK, midFramesOK, midFrameOK, Frame.env, hrest,
                    lOK_get hpl1 hget, onePH_set_ph hpl1 hget]
                · rw [← ho] at hw; cases hw
            · -- mark the parent done
              simp only [Except.ok.injEq, Prod.mk.injEq] at h
              obtain ⟨ho, hst⟩ := h
              subst hst
              refine ⟨?_, hs, fun w hw => ?_⟩
              · simp [snapOK, midFramesOK, vOK, hpl1, hrest]
              · rw [← ho] at hw; cases hw
        · -- ordinary call
          split at h
          · -- all slots evaluated: mark the parent done
            simp only [Except.ok.injEq, Prod.mk.injEq] at h
            obtain ⟨ho, hst⟩ := h
            subst hst
            refine ⟨?_, hs, fun w hw => ?_⟩
            · simp [snapOK, midFramesOK, vOK, hpl1, hrest]
            · rw [← ho] at hw; cases hw
          · -- push the next slot
            split at h
            next er heq2 => simp at h
            next sub heq2 =>
              simp only [Except.ok.injEq, Prod.mk.injEq] at h
              obtain ⟨ho, hst⟩ := h
              subst hst
              have hget := listGet_ok.mp heq2
              refine ⟨?_, hs, fun w hw => ?_⟩
              · simp [snapOK, midFramesOK, midFrameOK, Frame.env, hrest,
                  lOK_get hpl1 hget, onePH_set_ph hpl1 hget]
              · rw [← ho] at hw; cases hw

/-! ## Placeholder hygiene: run preserves the invariant -/

theorem run_ok {st : St} {o : Option Value} {st1 : St}
    (hs : storeOK st.store = true) (hk : snapOK st.stack = true)
    (h : run st = .ok (o, st1)) :
    snapOK st1.stack = true ∧ storeOK st1.store = true ∧
      ∀ w, o = some w → vOK w = true := by
  obtain ⟨store, stack, md, nc⟩ := st
  rcases stack with _ | ⟨⟨expr, env, done⟩, rest⟩
  · simp [run] at h
  · simp only [snapOK, Bool.and_eq_true] at hk
    obtain ⟨hex, hrest⟩ := hk
    cases expr with
    | sym s =>
      simp only [run] at h
      cases heq : envGet store store.length env s with
      | error er => simp [heq] at h
      | ok p =>
        obtain ⟨j, w⟩ := p
        simp only [heq] at h
        refine collapse_ok ?_ ?_ ?_ h
        · exact hs
        · simp [snapOK, hex, hrest]
        · exact envGet_vOK hs heq
    | int n =>
      simp only [run] at h
      refine collapse_ok ?_ ?_ hex h
      · exact hs
      · simp [snapOK, hex, hrest]
    | bool b =>
      simp only [run] at h
      refine collapse_ok ?_ ?_ hex h
      · exact hs
      · simp [snapOK, hex, hrest]
    | builtin nm bk =>
      simp only [run] at h
      refine collapse_ok ?_ ?_ hex h
      · exact hs
      · simp [snapOK, hex, hrest]
    | lam p b e =>
      simp only [run] at h
      refine collapse_ok ?_ ?_ hex h
      · exact hs
      · simp [snapOK, hex, hrest]
    | placeholder =>
      simp only [run] at h
      refine collapse_ok ?_ ?_ hex h
      · exact hs
      · simp [snapOK, hex, hrest]
    | list l =>
      rcases l with _ | ⟨e0, es⟩
      · simp only [run, Except.ok.injEq, Prod.mk.injEq] at h
        obtain ⟨ho, hst⟩ := h
        subst hst
        refine ⟨by simp [snapOK, hex, hrest], hs, fun w hw => ?_⟩
        rw [← ho] at hw
        injection hw with hw
        exact hw ▸ rfl
      · have hl : lOK (e0 :: es) = true := by simpa [vOK] using hex
        have he0 : vOK e0 = true := by
          simp only [lOK, Bool.and_eq_true] at hl
          exact hl.1
        have hes : lOK es = true := by
          simp only [lOK, Bool.and_eq_true] at hl
          exact hl.2
        cases done with
        | true =>
          simp only [run, eq_self_iff_true, if_true] at h
          by_cases hsf : isSF e0 = true
          · rw [if_pos hsf] at h
            cases hsa : sf_apply (e0 :: es) env store with
            | error er => simp [hsa] at h
            | ok trip =>
              obtain ⟨result, d, store2⟩ := trip
              simp only [hsa] at h
              obtain ⟨hr, hst2⟩ := sf_apply_ok hs hl hsa
              cases d with
              | true =>
                simp only [eq_self_iff_true, if_true] at h
                refine collapse_ok ?_ ?_ hr h
                · exact hst2
                · simp [snapOK, hex, hrest]
              | false =>
                simp only [Bool.false_eq_true, if_false, Except.ok.injEq,
                  Prod.mk.injEq] at h
                obtain ⟨ho, hst⟩ := h
                subst hst
                refine ⟨by simp [snapOK, hr, hrest], hst2, fun w hw => ?_⟩
                rw [← ho] at hw
                cases hw
          · rw [if_neg hsf] at h
            cases e0 with
            | lam params body fenv =>
              cases hpl : paramsList params with
              | error er => simp [hpl] at h
              | ok pl =>
                simp only [hpl] at h
                by_cases hlen : (es.length == pl.length) = true
                · rw [if_pos hlen] at h
                  simp only [Except.ok.injEq, Prod.mk.injEq] at h
                  obtain ⟨ho, hst⟩ := h
                  subst hst
                  have hb : vOK body = true := by
                    simp only [vOK, Bool.and_eq_true] at he0
                    exact he0.2
                  refine ⟨by simp [snapOK, hb, hrest], ?_, fun w hw => ?_⟩
                  · refine storeOK_append hs ?_
                    simp [storeOK, dataOK_bindParams hes]
                  · rw [← ho] at hw
                    cases hw
                · rw [if_neg hlen] at h
                  simp at h
            | builtin nm bk =>
              cases bk with
              | callcc =>
                cases es with
                | nil => simp at h
                | cons f fs =>
                  cases fs with
                  | cons f2 fs2 => simp at h
                  | nil =>
                    cases f with
                    | lam fparams fbody fenv =>
                      cases hpl : paramsList fparams with
                      | error er => simp [hpl] at h
                      | ok pl =>
                        simp only [hpl] at h
                        cases pl with
                        | nil => simp at h
                        | cons p ps =>
                          cases ps with
                          | cons p2 ps2 => simp at h
                          | nil =>
                            simp only [Except.ok.injEq, Prod.mk.injEq] at h
                            obtain ⟨ho, hst⟩ := h
                            subst hst
                            have hf : vOK (Value.lam fparams fbody fenv) = true := by
                              simp only [lOK, Bool.and_eq_true] at hes
                              exact hes.1
                            have hfb : vOK fbody = true := by
                              simp only [vOK, Bool.and_eq_true] at hf
                              exact hf.2
                            have hcap : snapOK (Frame.mk
                                (Value.list (Value.builtin nm BKind.callcc ::
                                  Value.lam fparams fbody fenv :: []))
                                env true :: rest) = true := by
                              simp [snapOK, hex, hrest]
                            obtain ⟨hdc1, hdc2⟩ := deepcopyStack_ok hcap hs
                            refine ⟨by simp [snapOK, hfb, hrest], ?_, fun w hw => ?_⟩
                            · refine storeOK_append hdc2 ?_
                              cases p <;> simp [storeOK, dataOK, vOK, bOK, hdc1]
                            · rw [← ho] at hw
                              cases hw
                    | list x => simp at h
                    | sym x => simp at h
                    | int x => simp at h
                    | bool x => simp at h
                    | builtin x y => simp at h
                    | placeholder => simp at h
              | cont snap =>
                cases es with
                | nil => simp at h
                | cons x xs =>
                  cases xs with
                  | cons x2 xs2 => simp at h
                  | nil =>
                    have hsnap : snapOK snap = true := by
                      simpa [vOK, bOK] using he0
                    obtain ⟨hdc1, hdc2⟩ := deepcopyStack_ok hsnap hs
                    have hx : vOK x = true := by
                      simp only [lOK, Bool.and_eq_true] at hes
                      exact hes.1
                    exact collapse_ok hdc2 hdc1 hx h
              | add =>
                cases hap : applyPrim BKind.add es with
                | error er => simp [hap] at h
                | ok v =>
                  simp only [hap] at h
                  refine collapse_ok ?_ ?_ (applyPrim_vOK hes hap) h
                  · exact hs
                  · simp [snapOK, hex, hrest]
              | sub =>
                cases hap : applyPrim BKind.sub es with
                | error er => simp [hap] at h
                | ok v =>
                  simp only [hap] at h
                  refine collapse_ok ?_ ?_ (applyPrim_vOK hes hap) h
                  · exact hs
                  · simp [snapOK, hex, hrest]
              | mul =>
                cases hap : applyPrim BKind.mul es with
                | error er => simp [hap] at h
                | ok v =>
                  simp only [hap] at h
                  refine collapse_ok ?_ ?_ (applyPrim_vOK hes hap) h
                  · exact hs
                  · simp [snapOK, hex, hrest]
              | eq =>
                cases hap : applyPrim BKind.eq es with
                | error er => simp [hap] at h
                | ok v =>
                  simp only [hap] at h
                  refine collapse_ok ?_ ?_ (applyPrim_vOK hes hap) h
                  · exact hs
                  · simp [snapOK, hex, hrest]
              | listv =>
                cases hap : applyPrim BKind.listv es with
                | error er => simp [hap] at h
                | ok v =>
                  simp only [hap] at h
                  refine collapse_ok ?_ ?_ (applyPrim_vOK hes hap) h
                  · exact hs
                  · simp [snapOK, hex, hrest]
            | list x => simp at h
            | sym x => simp at h
            | int x => simp at h
            | bool x => simp at h
            | placeholder => simp at h
        | false =>
          simp only [run, Bool.false_eq_true, if_false] at h
          by_cases hsf : isSF e0 = true
          · rw [if_pos hsf] at h
            cases hsn : sf_next (e0 :: es) 1 with
            | error er => simp [hsn] at h
            | ok plpos =>
              simp only [hsn] at h
              by_cases hgt : plpos > -1
              · rw [if_pos hgt] at h
                cases hlg : listGet (e0 :: es) plpos.toNat with
                | error er => simp [hlg] at h
                | ok sub =>
                  simp only [hlg] at h
                  simp only [Except.ok.injEq, Prod.mk.injEq] at h
                  obtain ⟨ho, hst⟩ := h
                  subst hst
                  have hget := listGet_ok.mp hlg
                  refine ⟨?_, hs, fun w hw => ?_⟩
                  · simp [snapOK, midFramesOK, midFrameOK, hrest,
                      lOK_get hl hget, onePH_set_ph hl hget]
                  · rw [← ho] at hw
                    cases hw
              · rw [if_neg hgt] at h
                simp only [Except.ok.injEq, Prod.mk.injEq] at h
                obtain ⟨ho, hst⟩ := h
                subst hst
                refine ⟨by simp [snapOK, hex, hrest], hs, fun w hw => ?_⟩
                rw [← ho] at hw
                cases hw
          · rw [if_neg hsf] at h
            simp only [Except.ok.injEq, Prod.mk.injEq] at h
            obtain ⟨ho, hst⟩ := h
            subst hst
            refine ⟨?_, hs, fun w hw => ?_⟩
            · simp [snapOK, midFramesOK, midFrameOK, onePH, he0, hes, hrest]
            · rw [← ho] at hw
              cases hw

theorem loop_ok : ∀ (fuel : Nat) (st : St) (v : Value) (st1 : St),
    storeOK st.store = true → snapOK st.stack = true →
    loop fuel st = .ok (some (v, st1)) → vOK v = true
  | 0, _, _, _, _, _, h => by simp [loop] at h
  | fuel + 1, st, v, st1, hs, hk, h => by
    unfold loop at h
    cases heq : run st with
    | error er => simp [heq] at h
    | ok p =>
      obtain ⟨or, st2⟩ := p
      simp only [heq] at h
      cases or with
      | some w =>
        simp only [Except.ok.injEq, Option.some.injEq, Prod.mk.injEq] at h
        obtain ⟨-, -, hsome⟩ := run_ok hs hk heq
        exact h.1 ▸ hsome w rfl
      | none =>
        obtain ⟨hk2, hs2, -⟩ := run_ok hs hk heq
        exact loop_ok fuel st2 v st1 hs2 hk2 h

/-! ## Placeholder hygiene: parsing produces placeholder-free trees -/

theorem convert_token_vOK (t : String) : vOK (convert_token t) = true := by
  simp only [convert_token]
  split
  · rfl
  · split
    · rfl
    · split
      · rfl
      · rfl

theorem parseGo_vOK : ∀ (ts : List String) (stk : List (List Value)) (v : Value),
    stksOK stk = true → parseGo ts stk = some v → vOK v = true
  | [], stk, v, hstk, h => by
    cases stk with
    | nil => simp [parseGo] at h
    | cons top rest =>
      simp only [parseGo, Option.some.injEq] at h
      simp only [stksOK, Bool.and_eq_true] at hstk
      exact h ▸ (by simpa [vOK] using lOK_reverse hstk.1)
  | t :: ts, stk, v, hstk, h => by
    simp only [parseGo] at h
    by_cases h1 : t = "("
    · rw [if_pos h1] at h
      exact parseGo_vOK ts _ v (by simp [stksOK, lOK, hstk]) h
    · rw [if_neg h1] at h
      by_cases h2 : t = ")"
      · rw [if_pos h2] at h
        cases stk with
        | nil => simp at h
        | cons top rest =>
          simp only [stksOK, Bool.and_eq_true] at hstk
          cases rest with
          | nil =>
            simp only [Option.some.injEq] at h
            exact h ▸ (by simpa [vOK] using lOK_reverse hstk.1)
          | cons up rest2 =>
            simp only [stksOK, Bool.and_eq_true] at hstk
            refine parseGo_vOK ts _ v ?_ h
            simp [stksOK, lOK, vOK, lOK_reverse hstk.1, hstk.2]
      · rw [if_neg h2] at h
        cases stk with
        | nil =>
          simp only [Option.some.injEq] at h
          exact h ▸ convert_token_vOK t
        | cons top rest =>
          simp only [stksOK, Bool.and_eq_true] at hstk
          refine parseGo_vOK ts _ v ?_ h
          simp [stksOK, lOK, convert_token_vOK t, hstk.1, hstk.2]

theorem parse_vOK {tokens : List String} {v : Value} (h : parse tokens = some v) :
    vOK v = true :=
  parseGo_vOK tokens [] v rfl h


/-! ## Claim theorems -/

/-- C1: invoking a captured continuation with a value x replaces the whole
live stack with a fresh deep copy of the snapshot taken at capture time and
collapses x at the point of capture, discarding all pending work; in
particular the four call/cc escape examples evaluate to 3, 4, 2 and 5. -/
theorem c1_callcc_escape_semantics :
    (∀ (store : Store) (nm : String) (snap : List Frame) (x : Value) (env : Nat)
        (rest : List Frame) (md nc : Nat),
      run ⟨store, .mk (.list [.builtin nm (.cont snap), x]) env true :: rest, md, nc⟩ =
        collapse x ⟨(deepcopyStack snap store).2, (deepcopyStack snap store).1,
          max md (rest.length + 1), nc + 1⟩) ∧
    evalStr "(call/cc (lambda (k) 3))" = some (.int 3) ∧
    evalStr "(+ 1 (call/cc (lambda (k) 3)))" = some (.int 4) ∧
    evalStr "(call/cc (lambda (k) (+ 1 (k 2))))" = some (.int 2) ∧
    evalStr "(+ 3 (call/cc (lambda (k) (+ 1 (k 2)))))" = some (.int 5) :=
  ⟨fun _ _ _ _ _ _ _ _ => rfl, rfl, rfl, rfl, rfl⟩

set_option maxRecDepth 400000 in
/-- C2: a done begin or if frame is popped and replaced by exactly one frame
holding the tail expression with the same environment, leaving the stack
length unchanged; consequently the accumulator-style factorial of 10 yields
3628800 with maximum observed depth 3, while the naive factorial needs
depth 12. -/
theorem c2_tail_call_elimination :
    (∀ (store : Store) (es : List Value) (tail : Value) (env : Nat)
        (rest : List Frame) (md nc : Nat),
      run ⟨store, .mk (.list (.sym "begin" :: (es ++ [tail]))) env true :: rest, md, nc⟩ =
        .ok (none, ⟨store, .mk tail env false :: rest, max md (rest.length + 1), nc + 1⟩)) ∧
    (∀ (store : Store) (c t2 t3 : Value) (extra : List Value) (env : Nat)
        (rest : List Frame) (md nc : Nat),
      run ⟨store, .mk (.list (.sym "if" :: c :: t2 :: t3 :: extra)) env true :: rest, md, nc⟩ =
        .ok (none, ⟨store, .mk (if pyTruthy c then t2 else t3) env false :: rest,
          max md (rest.length + 1), nc + 1⟩)) ∧
    resultOf (evalSeq 10000 initSt [facTailSrc, "(fac 10)"]) = some (.int 3628800) ∧
    depthOf (evalSeq 10000 initSt [facTailSrc, "(fac 10)"]) = some 3 ∧
    resultOf (evalSeq 10000 initSt [facNaiveSrc, "(fac 10)"]) = some (.int 3628800) ∧
    depthOf (evalSeq 10000 initSt [facNaiveSrc, "(fac 10)"]) = some 12 := by
  refine ⟨fun store es tail env rest md nc => ?_, fun store c t2 t3 extra env rest md nc => ?_,
    rfl, rfl, rfl, rfl⟩
  · show run _ = _
    have h : (Value.sym "begin" :: (es ++ [tail])).getLast? = some tail := by
      rw [← List.cons_append, List.getLast?_concat]
    simp only [run, sf_apply, isSF, SPECIAL_FORMS, List.contains, List.elem, h]
    rfl
  · cases hc : pyTruthy c <;>
      simp only [run, sf_apply, isSF, SPECIAL_FORMS, List.contains, List.elem, listGet,
        List.get?, hc, bind, Except.bind, Bool.false_eq_true, if_false, if_true] <;> rfl

/-- C3: for an if form only slot 1 is pre-evaluated (sf_next) and the apply
step installs slot 2 or slot 3, per the truthiness of the evaluated
condition, unevaluated; the untaken branch never runs, so the unbound
symbol bogus raises no UndefinedName in the two example programs even
though evaluating bogus alone does. -/
theorem c3_if_untaken_branch_unevaluated :
    (∀ (es : List Value) (plpos : Nat),
      sf_next (.sym "if" :: es) plpos = if plpos < 2 then .ok 1 else .ok (-1)) ∧
    (∀ (c t2 t3 : Value) (extra : List Value) (env : Nat) (store : Store),
      sf_apply (.sym "if" :: c :: t2 :: t3 :: extra) env store =
        if pyTruthy c then .ok (t2, false, store) else .ok (t3, false, store)) ∧
    evalStr "(if #t (+ 1 2) bogus)" = some (.int 3) ∧
    evalStr "(if #f bogus (+ 2 3))" = some (.int 5) ∧
    evalE "bogus" = .error (.nameError "bogus") := by
  refine ⟨fun es plpos => rfl, fun c t2 t3 extra env store => ?_, rfl, rfl, rfl⟩
  cases hc : pyTruthy c <;>
    simp only [sf_apply, listGet, List.get?, bind, Except.bind, hc, Bool.false_eq_true,
      if_false, if_true]

/-- C4: the code does not collapse an empty-list expression into its parent;
run returns the empty list as the final value immediately, even when the
stack still holds more than one frame, so an empty list in argument
position terminates the whole evaluation early: (list () 2) yields () with
two frames still on the stack. -/
theorem c4_empty_list_early_return :
    (∀ (store : Store) (env : Nat) (d : Bool) (rest : List Frame) (md nc : Nat),
      run ⟨store, .mk (.list []) env d :: rest, md, nc⟩ =
        .ok (some (.list []), ⟨store, .mk (.list []) env d :: rest,
          max md (rest.length + 1), nc + 1⟩)) ∧
    resultOf (evalIn 100 initSt "(list () 2)") = some (.list []) ∧
    stackLenOf (evalIn 100 initSt "(list () 2)") = some 2 ∧
    resultOf (evalIn 100 initSt "(list () 2)") ≠ some (.list [.list [], .int 2]) :=
  ⟨fun _ _ _ _ _ _ => rfl, rfl, rfl, by
    intro h
    rw [show resultOf (evalIn 100 initSt "(list () 2)") = some (.list []) from rfl] at h
    injection h with h1
    injection h1 with h2
    exact List.noConfusion h2⟩

/-- C5: for every program that runs to completion (from any interpreter
state whose environment store is placeholder-free, in particular a fresh
interpreter), the internal Placeholder sentinel does not occur anywhere
inside the final value handed back by eval. -/
theorem c5_placeholder_never_escapes :
    ∀ (fuel : Nat) (st : St) (s : String) (v : Value),
      storeOK st.store = true →
      resultOf (evalIn fuel st s) = some v →
      phFree v = true := by
  intro fuel st s v hs h
  unfold evalIn at h
  cases hp : parse (tokenize s) with
  | none => rw [hp] at h; simp [resultOf] at h
  | some p =>
    simp only [hp] at h
    unfold resultOf at h
    cases hl : loop fuel (feed st p) with
    | error er => simp [hl] at h
    | ok oo =>
      simp only [hl] at h
      cases oo with
      | none => simp at h
      | some pr =>
        obtain ⟨w, st2⟩ := pr
        simp only [Option.some.injEq] at h
        have hv : vOK w = true := by
          refine loop_ok fuel (feed st p) w st2 ?_ ?_ hl
          · exact hs
          · simp [feed, snapOK, midFramesOK, parse_vOK hp]
        exact h ▸ vOK_phFree w hv

/-- C5 witness: the fresh interpreter satisfies the store invariant, and a
concrete run produces a placeholder-free value. -/
theorem c5_placeholder_never_escapes_witness :
    storeOK initSt.store = true ∧
    resultOf (evalIn 100 initSt "(+ 1 2)") = some (.int 3) ∧
    phFree (.int 3) = true :=
  ⟨rfl, rfl, c5_placeholder_never_escapes 100 initSt "(+ 1 2)" (.int 3) rfl rfl⟩


/-- C6 counterexample: the step result of (define x 4) is the Python boolean
False, the very value the user literal #f evaluates to, and lisp_repr
renders it as the printable text False; it is not a marker distinct from
every user-representable value. -/
theorem c6_define_result_is_false :
    evalStr "(define x 4)" = some (.bool false) ∧
    evalStr "#f" = some (.bool false) ∧
    lisp_repr (.bool false) = "False" :=
  ⟨rfl, rfl, rfl⟩

/-- C6 (amended): applying a done (define name value) frame binds the slot-1
name to the evaluated slot-2 value in the current environment and yields
the boolean false (the value of #f) as the step result; a subsequent
lookup of the name in the same environment returns the bound value. -/
theorem c6_define_binds_and_yields_false :
    (∀ (env : Nat) (store : Store) (name : String) (value : Value) (extra : List Value),
      sf_apply (.sym "define" :: .sym name :: value :: extra) env store =
        .ok (.bool false, true, envBind store env name value)) ∧
    evalStr "(define x 4)" = some (.bool false) ∧
    resultOf (evalSeq 10000 initSt ["(define x 4)", "x"]) = some (.int 4) :=
  ⟨fun _ _ _ _ _ => rfl, rfl, rfl⟩

/-- C7: quote is not recognized by the interpreter: it is not in
SPECIAL_FORMS and not bound in the toplevel environment, so (quote x) is
treated as an ordinary call whose operator lookup raises
NameError("Undefined name: quote"), while the repository's own test suite
expects (quote x) to yield the symbol x. -/
theorem c7_quote_not_recognized :
    SPECIAL_FORMS.contains "quote" = false ∧
    assocGet "quote" toplevelEnv.data = none ∧
    evalE "(quote x)" = .error (.nameError "quote") :=
  ⟨rfl, rfl, rfl⟩

/-- C8: the toplevel environment binds neither apply nor eval, so the
example calls from the repository's own test suite fail with
NameError("Undefined name: apply") resp. eval, instead of expanding a call
or evaluating a quoted expression. -/
theorem c8_apply_eval_not_bound :
    assocGet "apply" toplevelEnv.data = none ∧
    assocGet "eval" toplevelEnv.data = none ∧
    evalE "(apply + (list 1 2))" = .error (.nameError "apply") ∧
    evalE "(eval (quote (+ 10 20)))" = .error (.nameError "eval") :=
  ⟨rfl, rfl, rfl, rfl⟩

/-- C9: round-tripping fails on booleans: lisp_repr tests isinstance(obj,
int) before its boolean branch, and Python booleans are integers, so the
parse of #t renders as True, not #t; the lists/symbols/integers part of
the round trip does hold on an example. -/
theorem c9_roundtrip_fails_on_booleans :
    parse (tokenize "#t") = some (.bool true) ∧
    (parse (tokenize "#t")).map lisp_repr = some "True" ∧
    "True" ≠ "#t" ∧
    (parse (tokenize "(+ 1 (f -2))")).map lisp_repr = some "(+ 1 (f -2))" :=
  ⟨rfl, rfl, by decide, rfl⟩

/-- C10: a fresh interpreter's toplevel environment pre-binds magic to the
integer 42, and evaluating the bare symbol magic yields 42. -/
theorem c10_magic_prebound :
    assocGet "magic" toplevelEnv.data = some (.int 42) ∧
    evalStr "magic" = some (.int 42) :=
  ⟨rfl, rfl⟩

end Dollop
